import Mathlib

/-!
Verification development for the light-client wallet synchronization core of
the WarutaShinken/chia-blockchain repository slice: the Header Range Server,
the Additions Resolver, the Dust/Spam Filter, the Reorg & Peak Reconciliation
engine, the Weight-Proof-Based Sync Engine, and the block recompression tool.

The repository slice contains the test suite (tests/wallet/sync/test_wallet_sync.py)
and the recompression tool (tools/recompress.py); the wallet-sync core itself is
not part of the slice, so its operations are modelled from the specification
(spec.md), with behaviour cross-checked against the tests where they speak.
Hashes, puzzle hashes and byte strings are modelled as natural numbers / lists
of natural numbers; Merkle proof payloads are abstracted to placeholder values
(their internals are out of scope for the spec).
-/

/-- HeaderBlock: a block header as served to wallets: height, foliage content
(abstracted), and the transactions-filter bytes. Modelled from the spec, data
model section 3. -/
structure HeaderBlock where
  height : Nat
  foliage : Nat
  transactions_filter : List Nat
deriving DecidableEq

/-- HeaderStore: the full node's local view used by the Header Range Server:
a partial map from height to header, plus the current peak height.
Modelled from the spec: the Header Range Server's local chain state. -/
structure HeaderStore where
  headers : Nat → Option HeaderBlock
  peak : Nat

/-- Reply type of the header range server: an ordered payload of headers, or an
explicit rejection message carrying no payload (the protocol never raises here:
there is no raised outcome in the server's behaviour). -/
inductive HeadersReply where
  | respond (hs : List HeaderBlock)
  | reject
deriving DecidableEq

/-- Fetch `n` consecutive headers starting at height `start`; fails (none) as
soon as one requested height does not exist locally. Modelled from the spec:
the body of the Header Range Server that gathers the requested range. -/
def collect_headers (st : HeaderStore) (start : Nat) : Nat → Option (List HeaderBlock)
  | 0 => some []
  | n + 1 =>
    match st.headers start, collect_headers st (start + 1) n with
    | some hb, some rest => some (hb :: rest)
    | _, _ => none

/-- Replace a header's transactions filter by the placeholder single-byte empty
filter when the caller did not ask for filters. Modelled from the spec:
return_filter=false yields a placeholder single-byte empty-filter value. -/
def strip_filter_if (return_filter : Bool) (hb : HeaderBlock) : HeaderBlock :=
  if return_filter then hb else { hb with transactions_filter := [0] }

/-- Modelled from the spec: the Header Range Server (RequestBlockHeaders), which
is absent from the repository slice. Given (start_height, end_height inclusive,
return_filter), returns the ordered HeaderBlocks for [start, end] iff
end ≥ start, the range size is at most 128, end ≤ peak, and every requested
height exists locally; otherwise rejects with no payload. -/
def request_block_headers (st : HeaderStore) (start_height end_height : Nat)
    (return_filter : Bool) : HeadersReply :=
  if end_height < start_height then .reject
  else if 128 < end_height - start_height + 1 then .reject
  else if st.peak < end_height then .reject
  else
    match collect_headers st start_height (end_height - start_height + 1) with
    | none => .reject
    | some hbs => .respond (hbs.map (strip_filter_if return_filter))

/-- Coin: the (parent_coin_info, puzzle_hash, amount) triple of the chain's data
model; identities, hashes and puzzle hashes are abstracted to naturals.
Modelled from the spec, data model section 3. -/
structure Coin where
  parent_coin_info : Nat
  puzzle_hash : Nat
  amount : Nat
deriving DecidableEq

/-- Block: the per-block information the wallet-sync core consumes: height,
header hash, parent link, the coins created (additions) and the coins spent
(removals) in the block. Modelled from the spec, data model section 3. -/
structure Block where
  height : Nat
  header_hash : Nat
  prev_header_hash : Nat
  additions : List Coin
  removals : List Coin
deriving DecidableEq

/-- WalletCoinRecord: a wallet-tracked coin with its confirmed height and
optional spent height. Modelled from the spec, data model section 3. -/
structure WalletCoinRecord where
  coin : Coin
  confirmed_height : Nat
  spent_height : Option Nat
deriving DecidableEq

/-- TransactionRecord: a wallet-visible unit of balance change, with confirmed
height and the additions it caused. Modelled from the spec, data model
section 3. -/
structure TransactionRecord where
  confirmed_height : Nat
  additions : List Coin
deriving DecidableEq

/-- WalletState: the wallet's local chain (ascending heights, index = height),
coin records, and transaction records; the peak is the last block of the local
chain. Modelled from the spec, data model section 3 and design notes section 9
(the chain as an arena indexed by height). -/
structure WalletState where
  chain : List Block
  coin_records : List WalletCoinRecord
  tx_records : List TransactionRecord
deriving DecidableEq

/-- Confirmed balance: the sum of the amounts of unspent wallet coin records. -/
def WalletState.balance (st : WalletState) : Nat :=
  ((st.coin_records.filter (fun r => r.spent_height.isNone)).map
    (fun r => r.coin.amount)).sum

/-- The additions of a block that pay one of the wallet's puzzle hashes. -/
def relevant_additions (phs : List Nat) (b : Block) : List Coin :=
  b.additions.filter (fun c => phs.contains c.puzzle_hash)

/-- A block is already applied when the local chain holds a block with the same
height and the same header hash. Modelled from the spec, testable properties
section 8 (idempotence of the reconciliation engine). -/
def already_applied (st : WalletState) (b : Block) : Bool :=
  st.chain.any (fun blk => blk.height = b.height && blk.header_hash = b.header_hash)

/-- A block is a simple extension when its parent link matches the wallet's
current peak (or it is the genesis block on an empty state). Modelled from the
spec, reconciliation step 1. -/
def extends_peak (st : WalletState) (b : Block) : Bool :=
  match st.chain.getLast? with
  | none => b.height = 0
  | some p => b.prev_header_hash = p.header_hash && b.height = p.height + 1

/-- Apply a block as a simple extension: mark wallet records spent by the
block's removals, create records for the wallet-relevant additions, record a
transaction when the block pays the wallet, and advance the peak. Modelled from
the spec, reconciliation step 1. -/
def apply_block (phs : List Nat) (st : WalletState) (b : Block) : WalletState :=
  let adds := relevant_additions phs b
  { chain := st.chain ++ [b]
    coin_records :=
      (st.coin_records.map (fun r =>
        if b.removals.contains r.coin && r.spent_height.isNone then
          { r with spent_height := some b.height } else r))
      ++ adds.map (fun c => ⟨c, b.height, none⟩)
    tx_records := st.tx_records ++ (if adds.isEmpty then [] else [⟨b.height, adds⟩]) }

/-- Roll local state back to fork height A: drop chain blocks above A, remove
coin records confirmed above A, revert spent heights set above A, and delete
transaction records confirmed above A. Modelled from the spec, reconciliation
step 3 (A is inclusive as the last height not rolled back). -/
def rollback (st : WalletState) (A : Nat) : WalletState :=
  { chain := st.chain.filter (fun blk => blk.height ≤ A)
    coin_records :=
      (st.coin_records.filter (fun r => r.confirmed_height ≤ A)).map (fun r =>
        match r.spent_height with
        | some s => if A < s then { r with spent_height := none } else r
        | none => r)
    tx_records := st.tx_records.filter (fun t => t.confirmed_height ≤ A) }

/-- Find the fork point for an incoming block: the height of the local chain
block that is the incoming block's parent. Modelled from the spec,
reconciliation step 2 (walk the local chain for the common ancestor). -/
def find_fork (st : WalletState) (b : Block) : Option Nat :=
  (st.chain.find? (fun blk =>
    blk.header_hash = b.prev_header_hash && blk.height + 1 = b.height)).map
    (fun blk => blk.height)

/-- Modelled from the spec: the Reorg & Peak Reconciliation engine (section 4.5),
which is absent from the repository slice. An already-applied block is a no-op
(section 8, idempotence); a block extending the peak is applied directly; a
forking block rolls state back to the common ancestor and is then applied; a
block with no reachable ancestor aborts in full with no partial commit
(section 7, reconciliation inconsistency). -/
def receive_block (phs : List Nat) (st : WalletState) (b : Block) : WalletState :=
  if already_applied st b then st
  else if extends_peak st b then apply_block phs st b
  else
    match find_fork st b with
    | some A => apply_block phs (rollback st A) b
    | none => st

/-- Feed a batch of blocks through the reconciliation engine in order. Modelled
from the spec: all sync paths apply blocks through section 4.5 in ascending
height order. -/
def sync_blocks (phs : List Nat) (st : WalletState) (bs : List Block) : WalletState :=
  bs.foldl (receive_block phs) st

/-- Modelled from the spec: the Weight-Proof-Based Sync Engine's fetch phase
(section 4.3), absent from the repository slice. The weight proof embeds the
most recent `W` blocks of the peer chain; the engine additionally backfills the
blocks between the window start and the wallet's own last-known height, then
reconciles everything in ascending order. -/
def weight_proof_sync (phs : List Nat) (W : Nat) (st : WalletState)
    (peer_chain : List Block) : WalletState :=
  let window_start := peer_chain.length - W
  let fetch_start := min window_start st.chain.length
  sync_blocks phs st (peer_chain.drop fetch_start)

/-- Consecutive heights check: every block of the list sits at its index offset
by `n`. -/
def heights_from : Nat → List Block → Bool
  | _, [] => true
  | n, b :: rest => b.height = n && heights_from (n + 1) rest

/-- Linked-branch check: the blocks form a parent-linked branch starting with
parent hash `ph` at height `n`. -/
def linked (ph : Nat) (n : Nat) : List Block → Bool
  | [] => true
  | b :: rest =>
    b.prev_header_hash = ph && b.height = n && linked b.header_hash (n + 1) rest

/-- Well-formed chain from genesis: first block at height 0, each later block
linked to its predecessor with consecutive heights. -/
def chain_linked : List Block → Bool
  | [] => true
  | b :: rest => b.height = 0 && linked b.header_hash 1 rest

/-- Modelled from the spec: the Dust/Spam Filter decision function (section 4.6),
absent from the repository slice. Accept unconditionally while the count of
already-accepted coins is below spam_filter_after_n_txs; once armed, accept
exactly the coins whose amount is at least xch_spam_amount (a coin whose amount
exactly equals the threshold counts as large). -/
def dust_accept (spam_filter_after_n_txs xch_spam_amount : Nat)
    (accepted_count : Nat) (amount : Nat) : Bool :=
  accepted_count < spam_filter_after_n_txs || xch_spam_amount ≤ amount

/-- Modelled from the spec: the caller-side use of the dust filter — a newly
observed coin either becomes a wallet coin record or is discarded entirely,
based on the filter's decision over the count of records accepted so far. -/
def receive_dust_coin (spam_filter_after_n_txs xch_spam_amount : Nat)
    (records : List Coin) (c : Coin) : List Coin :=
  if dust_accept spam_filter_after_n_txs xch_spam_amount records.length c.amount then
    records ++ [c]
  else records

/-- Sum of the amounts of the accepted coins (the balance credited by them). -/
def dust_balance (records : List Coin) : Nat := (records.map (fun c => c.amount)).sum

/-- The coins of a block created under one given puzzle hash. -/
def coins_for (adds : List Coin) (ph : Nat) : List Coin :=
  adds.filter (fun c => c.puzzle_hash = ph)

/-- Group all additions of a block by puzzle hash (each distinct puzzle hash
once, with all its coins). -/
def group_additions (adds : List Coin) : List (Nat × List Coin) :=
  ((adds.map (fun c => c.puzzle_hash)).dedup).map (fun ph => (ph, coins_for adds ph))

/-- One proof entry per requested puzzle hash, in request order: the hash, a
never-null existence proof, and an inclusion leaf that is non-null exactly when
the hash created at least one coin in the block. Proof payloads are abstracted
to placeholder values (Merkle internals are out of scope). Modelled from the
spec, section 4.2. -/
def make_proofs (adds : List Coin) (phs : List Nat) :
    List (Nat × Option Nat × Option Nat) :=
  phs.map (fun ph =>
    (ph, some ph, if (coins_for adds ph).isEmpty then none else some ph))

/-- RespondAdditions: height and header hash of the block, the per-puzzle-hash
coin lists, and the optional proof list. Modelled from the spec, section 6. -/
structure RespondAdditions where
  height : Nat
  header_hash : Nat
  coins : List (Nat × List Coin)
  proofs : Option (List (Nat × Option Nat × Option Nat))
deriving DecidableEq

/-- Outcome of a RequestAdditions call: a respond message, an explicit reject
message, or a raised error (a ValueError escaping the handler, as the test
suite observes for invalid heights and header hashes). -/
inductive AdditionsReply where
  | respond (r : RespondAdditions)
  | reject
  | raised
deriving DecidableEq

/-- Payload construction for a valid RequestAdditions: puzzle hashes absent
yields all coins grouped by puzzle hash with no proofs; a supplied list (empty
or not) yields one coin-list entry and one proof entry per requested hash, in
request order. Modelled from the spec, section 4.2. -/
def answer_additions (blk : Block) (height : Nat) (phs : Option (List Nat)) :
    AdditionsReply :=
  match phs with
  | none => .respond ⟨height, blk.header_hash, group_additions blk.additions, none⟩
  | some l =>
    .respond ⟨height, blk.header_hash,
      l.map (fun ph => (ph, coins_for blk.additions ph)),
      some (make_proofs blk.additions l)⟩

/-- Modelled from the spec: the Additions Resolver (RequestAdditions,
section 4.2), absent from the repository slice; its error path follows the test
suite (test_request_additions_errors), which observes a raised ValueError when
the height does not name a valid block or a supplied header hash does not match
the stored one. -/
def request_additions (store : Nat → Option Block) (height : Nat)
    (hh : Option Nat) (phs : Option (List Nat)) : AdditionsReply :=
  match store height with
  | none => .raised
  | some blk =>
    match hh with
    | some h => if h = blk.header_hash then answer_additions blk height phs else .raised
    | none => answer_additions blk height phs

/-- Cost per byte of generator size, from tools/recompress.py. -/
def COST_PER_BYTE : Nat := 12000

/-- Shallow embedding of recompress_block from tools/recompress.py. The CLVM
machinery is external to the repository (chia_rs and the clvm runtime), so it
enters as parameters: run_decomp runs the DECOMP_MOD decompression program on
the original generator with its reference blobs, serialize turns the resulting
value into bytes, create_compressed is compression.create_compressed_generator,
and run_compressed runs the recompressed program. The python function's assert
statements become the failure (none) cases: a missing transactions generator,
or r_before differing from r_after. On success it computes the original and
recompressed total costs. -/
def recompress_block {Val : Type} [DecidableEq Val]
    (run_decomp : List Nat → List (List Nat) → Nat × Val)
    (serialize : Val → List Nat)
    (create_compressed : List Nat → List Nat)
    (run_compressed : List Nat → Nat × Val)
    (transactions_generator : Option (List Nat))
    (generator_blobs : List (List Nat)) : Option (Nat × Nat) :=
  match transactions_generator with
  | none => none
  | some gen =>
    let before := run_decomp gen generator_blobs
    let original_cost := before.1 + gen.length * COST_PER_BYTE
    let serialized_decompressed_block := serialize before.2
    let recompressed_block := create_compressed serialized_decompressed_block
    let after := run_compressed recompressed_block
    if before.2 = after.2 then
      some (original_cost, after.1 + recompressed_block.length * COST_PER_BYTE)
    else none

/-- The wallet coin records created by reconciling a list of blocks whose
relevant additions all become fresh unspent records. -/
def new_coin_records (phs : List Nat) : List Block → List WalletCoinRecord
  | [] => []
  | b :: rest =>
    (relevant_additions phs b).map (fun c => ⟨c, b.height, none⟩)
      ++ new_coin_records phs rest

/-- Sample header at height 0 for concrete instantiations. -/
def hb0 : HeaderBlock := ⟨0, 10, [1, 2]⟩

/-- Sample header at height 1 for concrete instantiations. -/
def hb1 : HeaderBlock := ⟨1, 11, [3]⟩

/-- Sample header store holding exactly heights 0 and 1, peak 1. -/
def sample_store : HeaderStore :=
  ⟨fun h => if h = 0 then some hb0 else if h = 1 then some hb1 else none, 1⟩

/-- Sample block for the additions-resolver instantiations: height 0, header
hash 100, two coins under puzzle hash 7 and one under puzzle hash 8. -/
def cx_block : Block := ⟨0, 100, 0, [⟨1, 7, 30⟩, ⟨2, 7, 40⟩, ⟨3, 8, 5⟩], []⟩

/-- Sample block store holding exactly height 0. -/
def cx_store : Nat → Option Block := fun h => if h = 0 then some cx_block else none

/-- Sample genesis block for the reconciliation instantiations. -/
def blkA : Block := ⟨0, 100, 0, [], []⟩

/-- Sample block at height 1. -/
def blkB : Block := ⟨1, 101, 100, [], []⟩

/-- Sample block at height 2 paying the wallet puzzle hash 7 a reward. -/
def blkC : Block := ⟨2, 102, 101, [⟨0, 7, 1000⟩], []⟩

/-- Sample block at height 3. -/
def blkD : Block := ⟨3, 103, 102, [], []⟩

/-- Reorg branch block replacing height 2, paying the wallet nothing. -/
def reorgC : Block := ⟨2, 202, 101, [], []⟩

/-- Reorg branch block replacing height 3, paying the wallet nothing. -/
def reorgD : Block := ⟨3, 203, 202, [], []⟩

/-- Sample wallet state synced to blkA..blkD with the height-2 reward recorded. -/
def sample_wallet : WalletState :=
  ⟨[blkA, blkB, blkC, blkD], [⟨⟨0, 7, 1000⟩, 2, none⟩], [⟨2, [⟨0, 7, 1000⟩]⟩]⟩

/-- Peer chain for the weight-proof sync instantiation: the height-1 block pays
the wallet just before the recent-block window. -/
def peer7 : List Block :=
  [⟨0, 300, 0, [], []⟩, ⟨1, 301, 300, [⟨1, 7, 50⟩], []⟩, ⟨2, 302, 301, [], []⟩]

/-- Wallet state synced only to the genesis of peer7. -/
def st7 : WalletState := ⟨[⟨0, 300, 0, [], []⟩], [], []⟩

/-- Sample external decompression runner for the recompression instantiation. -/
def sample_run_decomp : List Nat → List (List Nat) → Nat × Nat := fun _ _ => (0, 7)

/-- Sample serializer for the recompression instantiation. -/
def sample_serialize : Nat → List Nat := fun v => [v]

/-- Sample compressor for the recompression instantiation. -/
def sample_compress : List Nat → List Nat := fun b => b

/-- Sample compressed-program runner for the recompression instantiation. -/
def sample_run_compressed : List Nat → Nat × Nat := fun _ => (0, 7)

theorem collect_headers_spec (st : HeaderStore) :
    ∀ (n start : Nat) (l : List HeaderBlock), collect_headers st start n = some l →
      l.length = n ∧ ∀ i (h : i < l.length), st.headers (start + i) = some (l.get ⟨i, h⟩) := by
  intro n
  induction n with
  | zero =>
    intro start l h
    simp only [collect_headers] at h
    cases h
    exact ⟨rfl, fun i h => absurd h (by simp)⟩
  | succ n ih =>
    intro start l h
    simp only [collect_headers] at h
    cases hh : st.headers start with
    | none => rw [hh] at h; exact absurd h (by simp)
    | some hb =>
      rw [hh] at h
      cases hc : collect_headers st (start + 1) n with
      | none => rw [hc] at h; exact absurd h (by simp)
      | some rest =>
        rw [hc] at h
        simp only [Option.some.injEq] at h
        subst h
        obtain ⟨hlen, hget⟩ := ih (start + 1) rest hc
        refine ⟨by simp [hlen], ?_⟩
        intro i hi
        cases i with
        | zero => simpa using hh
        | succ j =>
          have hj : j < rest.length := by simpa [hlen] using hi
          have := hget j hj
          simpa [Nat.add_comm, Nat.add_assoc, Nat.add_left_comm] using this

theorem collect_headers_total (st : HeaderStore) :
    ∀ (n start : Nat), (∀ i, i < n → (st.headers (start + i)).isSome) →
      ∃ l, collect_headers st start n = some l := by
  intro n
  induction n with
  | zero => intro start _; exact ⟨[], rfl⟩
  | succ n ih =>
    intro start hall
    have h0 : (st.headers start).isSome := by simpa using hall 0 (Nat.succ_pos n)
    obtain ⟨hb, hhb⟩ := Option.isSome_iff_exists.mp h0
    obtain ⟨rest, hrest⟩ := ih (start + 1) (by
      intro i hi
      have := hall (i + 1) (Nat.succ_lt_succ hi)
      simpa [Nat.add_comm, Nat.add_assoc, Nat.add_left_comm] using this)
    exact ⟨hb :: rest, by simp [collect_headers, hhb, hrest]⟩

theorem rbh_respond_spec (st : HeaderStore) (s e : Nat) (f : Bool)
    (hs : List HeaderBlock) (h : request_block_headers st s e f = .respond hs) :
    hs.length = e - s + 1 ∧
      ∀ i (hi : i < hs.length), ∃ hb, st.headers (s + i) = some hb ∧
        hs.get ⟨i, hi⟩ = strip_filter_if f hb := by
  unfold request_block_headers at h
  by_cases h1 : e < s
  · simp [h1] at h
  by_cases h2 : 128 < e - s + 1
  · simp [h1, h2] at h
  by_cases h3 : st.peak < e
  · simp [h1, h2, h3] at h
  simp only [h1, h2, h3, if_false, if_neg] at h
  cases hc : collect_headers st s (e - s + 1) with
  | none => rw [hc] at h; exact absurd h (by simp)
  | some l =>
    rw [hc] at h
    simp only [HeadersReply.respond.injEq] at h
    subst h
    obtain ⟨hlen, hget⟩ := collect_headers_spec st (e - s + 1) s l hc
    refine ⟨by simp [hlen], ?_⟩
    intro i hi
    have hi2 : i < l.length := by simpa using hi
    exact ⟨l.get ⟨i, hi2⟩, hget i hi2, by simp⟩

theorem rbh_accept_iff (st : HeaderStore) (s e : Nat) (f : Bool) :
    (∃ hs, request_block_headers st s e f = .respond hs) ↔
      (s ≤ e ∧ e - s + 1 ≤ 128 ∧ e ≤ st.peak ∧
        ∀ i, i < e - s + 1 → (st.headers (s + i)).isSome) := by
  constructor
  · rintro ⟨hs, h⟩
    unfold request_block_headers at h
    by_cases h1 : e < s
    · simp [h1] at h
    by_cases h2 : 128 < e - s + 1
    · simp [h1, h2] at h
    by_cases h3 : st.peak < e
    · simp [h1, h2, h3] at h
    refine ⟨Nat.le_of_not_lt h1, Nat.le_of_not_lt h2, Nat.le_of_not_lt h3, ?_⟩
    simp only [h1, h2, h3, if_false, if_neg] at h
    cases hc : collect_headers st s (e - s + 1) with
    | none => rw [hc] at h; exact absurd h (by simp)
    | some l =>
      obtain ⟨hlen, hget⟩ := collect_headers_spec st (e - s + 1) s l hc
      intro i hi
      have hi2 : i < l.length := by rw [hlen]; exact hi
      rw [(hget i hi2)]
      simp
  · rintro ⟨h1, h2, h3, h4⟩
    obtain ⟨l, hl⟩ := collect_headers_total st (e - s + 1) s h4
    refine ⟨l.map (strip_filter_if f), ?_⟩
    unfold request_block_headers
    rw [if_neg (Nat.not_lt.mpr h1), if_neg (Nat.not_lt.mpr h2), if_neg (Nat.not_lt.mpr h3), hl]

theorem rbh_reject (st : HeaderStore) (s e : Nat) (f : Bool)
    (h : ¬ (s ≤ e ∧ e - s + 1 ≤ 128 ∧ e ≤ st.peak ∧
      ∀ i, i < e - s + 1 → (st.headers (s + i)).isSome)) :
    request_block_headers st s e f = .reject := by
  cases hr : request_block_headers st s e f with
  | reject => rfl
  | respond hs => exact absurd ((rbh_accept_iff st s e f).mp ⟨hs, hr⟩) h

/-- C2: RequestBlockHeaders(start, end, return_filter) is answered with the
ordered sequence of headers for heights [start, end] exactly when end ≥ start,
the batch is at most 128 headers, end is at most the local peak, and every
requested height exists locally; in every other case the reply is the explicit
rejection message, which carries no payload (the reply type has no raising
outcome: the server is a total function into respond/reject). -/
theorem request_block_headers_contract (st : HeaderStore) (s e : Nat) (f : Bool) :
    ((∃ hs, request_block_headers st s e f = .respond hs) ↔
      (s ≤ e ∧ e - s + 1 ≤ 128 ∧ e ≤ st.peak ∧
        ∀ i, i < e - s + 1 → (st.headers (s + i)).isSome)) ∧
    (∀ hs, request_block_headers st s e f = .respond hs →
      hs.length = e - s + 1 ∧
        ∀ i (hi : i < hs.length), ∃ hb, st.headers (s + i) = some hb ∧
          hs.get ⟨i, hi⟩ = strip_filter_if f hb) ∧
    ((¬ (s ≤ e ∧ e - s + 1 ≤ 128 ∧ e ≤ st.peak ∧
        ∀ i, i < e - s + 1 → (st.headers (s + i)).isSome)) →
      request_block_headers st s e f = .reject) :=
  ⟨rbh_accept_iff st s e f, fun hs h => rbh_respond_spec st s e f hs h,
    rbh_reject st s e f⟩

theorem request_block_headers_contract_witness :
    (∃ hs, request_block_headers sample_store 0 1 true = .respond hs) ∧
    request_block_headers sample_store 0 200 true = .reject :=
  ⟨(request_block_headers_contract sample_store 0 1 true).1.mpr
      ⟨by decide, by decide, by decide, by decide⟩,
    (request_block_headers_contract sample_store 0 200 true).2.2 (by decide)⟩

/-- C9: every header returned by an accepted RequestBlockHeaders with
return_filter = false carries the placeholder single-byte empty filter in place
of its real transactions filter, while height and foliage are returned
unchanged from the stored header. -/
theorem request_block_headers_no_filter (st : HeaderStore) (s e : Nat)
    (hs : List HeaderBlock) (h : request_block_headers st s e false = .respond hs) :
    (∀ hb ∈ hs, hb.transactions_filter = [0]) ∧
    ∀ i (hi : i < hs.length), ∃ hb, st.headers (s + i) = some hb ∧
      (hs.get ⟨i, hi⟩).height = hb.height ∧ (hs.get ⟨i, hi⟩).foliage = hb.foliage ∧
      (hs.get ⟨i, hi⟩).transactions_filter = [0] := by
  obtain ⟨hlen, hget⟩ := rbh_respond_spec st s e false hs h
  constructor
  · intro hb hmem
    obtain ⟨i, hi, rfl⟩ := List.get_of_mem hmem
    obtain ⟨hb0, _, hstrip⟩ := hget i.1 i.2
    rw [hstrip]
    simp [strip_filter_if]
  · intro i hi
    obtain ⟨hb, hhb, hstrip⟩ := hget i hi
    exact ⟨hb, hhb, by rw [hstrip]; simp [strip_filter_if],
      by rw [hstrip]; simp [strip_filter_if], by rw [hstrip]; simp [strip_filter_if]⟩

theorem request_block_headers_no_filter_witness :
    ∃ hs, request_block_headers sample_store 0 1 false = .respond hs ∧
      ∀ hb ∈ hs, hb.transactions_filter = [0] := by
  have hacc := (rbh_accept_iff sample_store 0 1 false).mpr
    ⟨by decide, by decide, by decide, by decide⟩
  obtain ⟨hs, hhs⟩ := hacc
  exact ⟨hs, hhs, (request_block_headers_no_filter sample_store 0 1 hs hhs).1⟩

/-- C3: with thresholds spam_filter_after_n_txs = N and xch_spam_amount = A, the
dust filter accepts every coin while fewer than N coins have been accepted,
regardless of amount; once N coins have been accepted, a further coin with
amount < A is discarded entirely (no record created, no balance credited);
and a coin with amount ≥ A — including one exactly equal to A — is accepted
regardless of arming state. -/
theorem dust_filter_contract (N A : Nat) (records : List Coin) (c : Coin) :
    (records.length < N → receive_dust_coin N A records c = records ++ [c]) ∧
    (N ≤ records.length → c.amount < A →
      receive_dust_coin N A records c = records ∧
      dust_balance (receive_dust_coin N A records c) = dust_balance records) ∧
    (A ≤ c.amount → receive_dust_coin N A records c = records ++ [c]) := by
  refine ⟨?_, ?_, ?_⟩
  · intro h
    simp [receive_dust_coin, dust_accept, h]
  · intro h1 h2
    have hacc : dust_accept N A records.length c.amount = false := by
      simp [dust_accept, Nat.not_lt.mpr h1, Nat.not_le.mpr h2]
    constructor
    · simp [receive_dust_coin, hacc]
    · simp [receive_dust_coin, hacc]
  · intro h
    simp [receive_dust_coin, dust_accept, h]

theorem dust_filter_contract_witness :
    receive_dust_coin 1 5 [⟨0, 0, 3⟩] ⟨1, 0, 2⟩ = [⟨0, 0, 3⟩] ∧
    receive_dust_coin 1 5 [⟨0, 0, 3⟩] ⟨1, 0, 5⟩ = [⟨0, 0, 3⟩, ⟨1, 0, 5⟩] ∧
    receive_dust_coin 1 5 [] ⟨1, 0, 2⟩ = [⟨1, 0, 2⟩] :=
  ⟨((dust_filter_contract 1 5 [⟨0, 0, 3⟩] ⟨1, 0, 2⟩).2.1 (by decide) (by decide)).1,
    (dust_filter_contract 1 5 [⟨0, 0, 3⟩] ⟨1, 0, 5⟩).2.2 (by decide),
    (dust_filter_contract 1 5 [] ⟨1, 0, 2⟩).1 (by decide)⟩

/-- C10: whenever recompress_block completes on a block with a transactions
generator, the value produced by running the recompressed generator equals the
value produced by running the decompression program on the original generator
with its reference blobs (the python assert r_before == r_after is on the only
successful path). -/
theorem recompress_block_preserves_result {Val : Type} [DecidableEq Val]
    (run_decomp : List Nat → List (List Nat) → Nat × Val)
    (serialize : Val → List Nat)
    (create_compressed : List Nat → List Nat)
    (run_compressed : List Nat → Nat × Val)
    (gen : List Nat) (blobs : List (List Nat)) (out : Nat × Nat)
    (h : recompress_block run_decomp serialize create_compressed run_compressed
      (some gen) blobs = some out) :
    (run_compressed (create_compressed (serialize (run_decomp gen blobs).2))).2
      = (run_decomp gen blobs).2 := by
  unfold recompress_block at h
  by_cases hc : (run_decomp gen blobs).2
      = (run_compressed (create_compressed (serialize (run_decomp gen blobs).2))).2
  · exact hc.symm
  · simp only [hc, if_false, if_neg] at h
    exact absurd h (by simp)

theorem recompress_block_preserves_result_witness :
    (sample_run_compressed (sample_compress (sample_serialize
      (sample_run_decomp [1, 2] []).2))).2 = (sample_run_decomp [1, 2] []).2 :=
  recompress_block_preserves_result sample_run_decomp sample_serialize
    sample_compress sample_run_compressed [1, 2] [] (24000, 12000) (by decide)

/-- C8: re-delivering a block that is already applied (a block with the same
height and header hash is present in the wallet's local chain) to the
reconciliation engine leaves the wallet state unchanged: no duplicate coin
records, transaction records, or balance credit. -/
theorem receive_block_idempotent (phs : List Nat) (st : WalletState) (b : Block)
    (h : already_applied st b = true) :
    receive_block phs st b = st := by
  simp [receive_block, h]

theorem receive_block_idempotent_witness :
    receive_block [7] sample_wallet blkC = sample_wallet :=
  receive_block_idempotent [7] sample_wallet blkC (by decide)

theorem coins_for_mem (adds : List Coin) (ph : Nat) (c : Coin) :
    c ∈ coins_for adds ph ↔ c ∈ adds ∧ c.puzzle_hash = ph := by
  simp [coins_for]

theorem coins_for_eq_nil (adds : List Coin) (ph : Nat) :
    coins_for adds ph = [] ↔ ¬ ∃ c ∈ adds, c.puzzle_hash = ph := by
  constructor
  · intro h hex
    obtain ⟨c, hc, hph⟩ := hex
    have : c ∈ coins_for adds ph := (coins_for_mem adds ph c).mpr ⟨hc, hph⟩
    rw [h] at this
    exact absurd this (List.not_mem_nil c)
  · intro h
    rcases hn : coins_for adds ph with _ | ⟨c, rest⟩
    · rfl
    · have hc : c ∈ coins_for adds ph := by rw [hn]; exact List.mem_cons_self c rest
      obtain ⟨hmem, hph⟩ := (coins_for_mem adds ph c).mp hc
      exact absurd ⟨c, hmem, hph⟩ h

/-- C4: a RequestAdditions naming a non-empty list of puzzle hashes against a
valid block is answered with exactly one proof entry per requested hash, in
request order: the existence proof is never null, and the inclusion leaf is
non-null exactly when the hash created at least one coin in the block; every
requested hash also appears in the coin list, with an empty coin list exactly
for the hashes that matched no coin. -/
theorem request_additions_proof_per_hash (store : Nat → Option Block)
    (height : Nat) (hh : Option Nat) (l : List Nat) (blk : Block)
    (hstore : store height = some blk)
    (hhh : hh = none ∨ hh = some blk.header_hash)
    (hne : l ≠ []) :
    ∃ r, request_additions store height hh (some l) = .respond r ∧
      r.height = height ∧ r.header_hash = blk.header_hash ∧
      (∃ pl, r.proofs = some pl ∧
        pl.map (fun en => en.1) = l ∧
        ∀ en ∈ pl, en.2.1.isSome = true ∧
          (en.2.2.isSome = true ↔ ∃ c ∈ blk.additions, c.puzzle_hash = en.1)) ∧
      r.coins.map (fun p => p.1) = l ∧
      ∀ p ∈ r.coins, (∀ c ∈ p.2, c.puzzle_hash = p.1 ∧ c ∈ blk.additions) ∧
        (p.2 = [] ↔ ¬ ∃ c ∈ blk.additions, c.puzzle_hash = p.1) := by
  have hreq : request_additions store height hh (some l)
      = answer_additions blk height (some l) := by
    rcases hhh with rfl | rfl
    · simp [request_additions, hstore]
    · simp [request_additions, hstore]
  refine ⟨⟨height, blk.header_hash,
    l.map (fun ph => (ph, coins_for blk.additions ph)),
    some (make_proofs blk.additions l)⟩, by rw [hreq]; rfl, rfl, rfl, ?_, ?_, ?_⟩
  · refine ⟨make_proofs blk.additions l, rfl, ?_, ?_⟩
    · rw [make_proofs, List.map_map]
      exact List.map_id' l
    · intro en hen
      obtain ⟨ph, hph, rfl⟩ := List.mem_map.mp hen
      refine ⟨by simp, ?_⟩
      by_cases hc : coins_for blk.additions ph = []
      · simp only [hc]
        simp [coins_for_eq_nil blk.additions ph |>.mp hc]
      · have : (coins_for blk.additions ph).isEmpty = false := by
          simpa [List.isEmpty_iff] using hc
        simp only [this]
        have hex : ∃ c ∈ blk.additions, c.puzzle_hash = ph := by
          by_contra hno
          exact hc ((coins_for_eq_nil blk.additions ph).mpr hno)
        simp [hex]
  · rw [List.map_map]
    exact List.map_id' l
  · intro p hp
    obtain ⟨ph, hph, rfl⟩ := List.mem_map.mp hp
    refine ⟨?_, ?_⟩
    · intro c hc
      obtain ⟨hmem, hpz⟩ := (coins_for_mem blk.additions ph c).mp hc
      exact ⟨hpz, hmem⟩
    · exact coins_for_eq_nil blk.additions ph

theorem request_additions_proof_per_hash_witness :
    ∃ r, request_additions cx_store 0 (some 100) (some [7, 9]) = .respond r ∧
      r.proofs = some [(7, some 7, some 7), (9, some 9, none)] ∧
      r.coins = [(7, [⟨1, 7, 30⟩, ⟨2, 7, 40⟩]), (9, [])] := by
  obtain ⟨r, hr, -⟩ := request_additions_proof_per_hash cx_store 0 (some 100)
    [7, 9] cx_block (by decide) (Or.inr (by decide)) (by decide)
  refine ⟨r, hr, ?_, ?_⟩
  · have : request_additions cx_store 0 (some 100) (some [7, 9])
        = .respond ⟨0, 100, [(7, [⟨1, 7, 30⟩, ⟨2, 7, 40⟩]), (9, [])],
            some [(7, some 7, some 7), (9, some 9, none)]⟩ := by decide
    rw [this] at hr
    cases hr
    rfl
  · have : request_additions cx_store 0 (some 100) (some [7, 9])
        = .respond ⟨0, 100, [(7, [⟨1, 7, 30⟩, ⟨2, 7, 40⟩]), (9, [])],
            some [(7, some 7, some 7), (9, some 9, none)]⟩ := by decide
    rw [this] at hr
    cases hr
    rfl

/-- C5: against a valid block, a RequestAdditions whose puzzle-hash list is
supplied but empty is answered with an empty coin list and an empty (but
present) proof list, while a RequestAdditions whose puzzle-hash list is absent
is answered with all coins created in the block, grouped by puzzle hash, and no
proofs. -/
theorem request_additions_empty_vs_absent (store : Nat → Option Block)
    (height : Nat) (hh : Option Nat) (blk : Block)
    (hstore : store height = some blk)
    (hhh : hh = none ∨ hh = some blk.header_hash) :
    request_additions store height hh (some []) =
      .respond ⟨height, blk.header_hash, [], some []⟩ ∧
    ∃ r, request_additions store height hh none = .respond r ∧
      r.height = height ∧ r.header_hash = blk.header_hash ∧ r.proofs = none ∧
      (∀ c, c ∈ blk.additions ↔ ∃ p ∈ r.coins, c ∈ p.2) ∧
      (∀ p ∈ r.coins, ∀ c ∈ p.2, c.puzzle_hash = p.1) := by
  have hreq : ∀ phs, request_additions store height hh phs
      = answer_additions blk height phs := by
    intro phs
    rcases hhh with rfl | rfl
    · simp [request_additions, hstore]
    · simp [request_additions, hstore]
  constructor
  · rw [hreq]
    simp [answer_additions, make_proofs]
  · refine ⟨⟨height, blk.header_hash, group_additions blk.additions, none⟩,
      by rw [hreq]; rfl, rfl, rfl, rfl, ?_, ?_⟩
    · intro c
      constructor
      · intro hc
        refine ⟨(c.puzzle_hash, coins_for blk.additions c.puzzle_hash), ?_, ?_⟩
        · apply List.mem_map.mpr
          refine ⟨c.puzzle_hash, ?_, rfl⟩
          exact List.mem_dedup.mpr (List.mem_map.mpr ⟨c, hc, rfl⟩)
        · exact (coins_for_mem blk.additions c.puzzle_hash c).mpr ⟨hc, rfl⟩
      · rintro ⟨p, hp, hcp⟩
        obtain ⟨ph, hph, rfl⟩ := List.mem_map.mp hp
        exact ((coins_for_mem blk.additions ph c).mp hcp).1
    · intro p hp c hc
      obtain ⟨ph, hph, rfl⟩ := List.mem_map.mp hp
      exact ((coins_for_mem blk.additions ph c).mp hc).2

theorem request_additions_empty_vs_absent_witness :
    request_additions cx_store 0 none (some []) = .respond ⟨0, 100, [], some []⟩ ∧
    request_additions cx_store 0 none none =
      .respond ⟨0, 100, [(7, [⟨1, 7, 30⟩, ⟨2, 7, 40⟩]), (8, [⟨3, 8, 5⟩])], none⟩ := by
  have h := request_additions_empty_vs_absent cx_store 0 none cx_block
    (by decide) (Or.inl rfl)
  exact ⟨h.1.trans (by decide), by decide⟩

/-- C6 counterexample: the resolver answers an invalid height (no block at
height 100) and a mismatched header hash (55 against the stored 100) with a
raised error, not with an explicit reject message — refuting the claim that
such requests are answered as an explicit reject message and never a
connection-level fault. -/
theorem request_additions_reject_counterexample :
    request_additions cx_store 100 none (some [7]) = .raised ∧
    request_additions cx_store 100 none (some [7]) ≠ .reject ∧
    request_additions cx_store 0 (some 55) (some [7]) = .raised ∧
    request_additions cx_store 0 (some 55) (some [7]) ≠ .reject := by decide

/-- C6 (amended): a RequestAdditions whose height does not name a valid block,
or whose supplied header hash does not match the header hash stored at that
height, fails by raising an invalid-request error (the ValueError the test
suite expects), not by answering with a respond or reject message. -/
theorem request_additions_invalid_raises (store : Nat → Option Block)
    (height : Nat) (hh : Option Nat) (phs : Option (List Nat))
    (h : store height = none ∨
      ∃ blk h0, store height = some blk ∧ hh = some h0 ∧ h0 ≠ blk.header_hash) :
    request_additions store height hh phs = .raised := by
  rcases h with hnone | ⟨blk, h0, hblk, rfl, hne⟩
  · simp [request_additions, hnone]
  · simp [request_additions, hblk, hne]

theorem heights_from_get : ∀ (c : List Block) (n : Nat), heights_from n c = true →
    ∀ i (h : i < c.length), (c.get ⟨i, h⟩).height = n + i := by
  intro c
  induction c with
  | nil => intro n _ i h; exact absurd h (by simp)
  | cons b rest ih =>
    intro n hh i h
    simp only [heights_from, Bool.and_eq_true, decide_eq_true_eq] at hh
    cases i with
    | zero => simpa using hh.1
    | succ j =>
      have hj : j < rest.length := by simpa using h
      have hrec := ih (n + 1) hh.2 j hj
      have h2 : ((b :: rest).get ⟨j + 1, h⟩) = rest.get ⟨j, hj⟩ := rfl
      rw [h2, hrec]
      omega

theorem heights_from_mem_lt : ∀ (c : List Block) (n : Nat), heights_from n c = true →
    ∀ b ∈ c, n ≤ b.height ∧ b.height < n + c.length := by
  intro c
  induction c with
  | nil => intro n _ b hb; exact absurd hb (List.not_mem_nil b)
  | cons b0 rest ih =>
    intro n hh b hb
    simp only [heights_from, Bool.and_eq_true, decide_eq_true_eq] at hh
    rcases List.mem_cons.mp hb with rfl | hmem
    · refine ⟨?_, ?_⟩ <;> simp only [hh.1, List.length_cons] <;> omega
    · have := ih (n + 1) hh.2 b hmem
      constructor
      · omega
      · simp only [List.length_cons]; omega

theorem linked_heights : ∀ (bs : List Block) (ph n : Nat), linked ph n bs = true →
    heights_from n bs = true := by
  intro bs
  induction bs with
  | nil => intro ph n _; rfl
  | cons b rest ih =>
    intro ph n hh
    simp only [linked, Bool.and_eq_true, decide_eq_true_eq] at hh
    simp only [heights_from, Bool.and_eq_true, decide_eq_true_eq]
    exact ⟨hh.1.2, ih b.header_hash (n + 1) hh.2⟩

theorem chain_linked_heights (c : List Block) (h : chain_linked c = true) :
    heights_from 0 c = true := by
  cases c with
  | nil => rfl
  | cons b rest =>
    simp only [chain_linked, Bool.and_eq_true, decide_eq_true_eq] at h
    simp only [heights_from, Bool.and_eq_true, decide_eq_true_eq]
    exact ⟨h.1, linked_heights rest b.header_hash 1 h.2⟩

theorem heights_from_take : ∀ (c : List Block) (n k : Nat), heights_from n c = true →
    heights_from n (c.take k) = true := by
  intro c
  induction c with
  | nil => intro n k _; simp [heights_from]
  | cons b rest ih =>
    intro n k hh
    simp only [heights_from, Bool.and_eq_true, decide_eq_true_eq] at hh
    cases k with
    | zero => rfl
    | succ j =>
      simp only [List.take_succ_cons, heights_from, Bool.and_eq_true, decide_eq_true_eq]
      exact ⟨hh.1, ih (n + 1) j hh.2⟩

theorem heights_from_getLast : ∀ (c : List Block) (n : Nat), heights_from n c = true →
    ∀ q, c.getLast? = some q → q.height = n + c.length - 1 := by
  intro c
  induction c with
  | nil => intro n _ q hq; exact absurd hq (by simp)
  | cons b rest ih =>
    intro n hh q hq
    simp only [heights_from, Bool.and_eq_true, decide_eq_true_eq] at hh
    cases rest with
    | nil =>
      have hqb : b = q := by simpa using hq
      subst hqb
      simp [hh.1]
    | cons r rs =>
      have hq2 : (r :: rs).getLast? = some q := by
        rwa [List.getLast?_cons_cons] at hq
      have := ih (n + 1) hh.2 q hq2
      simp only [List.length_cons] at this ⊢
      omega

theorem heights_mem_eq_get (c : List Block) (hc : heights_from 0 c = true)
    (b : Block) (hb : b ∈ c) (h : b.height < c.length) :
    b = c.get ⟨b.height, h⟩ := by
  obtain ⟨i, hi⟩ := List.mem_iff_get.mp hb
  have hih : (c.get i).height = i.1 := by simpa using heights_from_get c 0 hc i.1 i.2
  subst hi
  congr 1
  exact Fin.ext hih.symm

theorem linked_suffix : ∀ (bs : List Block) (ph n : Nat), linked ph n bs = true →
    ∀ k (hk : k < bs.length),
      linked (bs.get ⟨k, hk⟩).header_hash (n + k + 1) (bs.drop (k + 1)) = true := by
  intro bs
  induction bs with
  | nil => intro ph n _ k hk; exact absurd hk (by simp)
  | cons b rest ih =>
    intro ph n hh k hk
    simp only [linked, Bool.and_eq_true, decide_eq_true_eq] at hh
    cases k with
    | zero => simpa using hh.2
    | succ j =>
      have hj : j < rest.length := by simpa using hk
      have hrec := ih b.header_hash (n + 1) hh.2 j hj
      have h2 : ((b :: rest).get ⟨j + 1, hk⟩) = rest.get ⟨j, hj⟩ := rfl
      have h3 : ((b :: rest).drop (j + 1 + 1)) = rest.drop (j + 1) := rfl
      rw [h2, h3]
      have h4 : n + 1 + j + 1 = n + (j + 1) + 1 := by omega
      rwa [h4] at hrec

theorem chain_linked_drop (c : List Block) (h : chain_linked c = true) (m : Nat)
    (hm1 : 1 ≤ m) (hm2 : m ≤ c.length) (hlt : m - 1 < c.length) :
    linked (c.get ⟨m - 1, hlt⟩).header_hash m (c.drop m) = true := by
  cases c with
  | nil => simp at hm2; omega
  | cons b rest =>
    simp only [chain_linked, Bool.and_eq_true, decide_eq_true_eq] at h
    cases m with
    | zero => omega
    | succ k =>
      cases k with
      | zero => simpa using h.2
      | succ j =>
        have hj : j < rest.length := by
          simp only [List.length_cons] at hlt
          omega
        have hrec := linked_suffix rest b.header_hash 1 h.2 j hj
        have h2 : ((b :: rest).get ⟨j + 1 + 1 - 1, hlt⟩) = rest.get ⟨j, hj⟩ := rfl
        have h3 : ((b :: rest).drop (j + 1 + 1)) = rest.drop (j + 1) := rfl
        rw [h2, h3]
        have h4 : 1 + j + 1 = j + 1 + 1 := by omega
        rwa [h4] at hrec

theorem extend_step (phs : List Nat) (st : WalletState) (p b : Block)
    (hlast : st.chain.getLast? = some p)
    (hle : ∀ blk ∈ st.chain, blk.height ≤ p.height)
    (hprev : b.prev_header_hash = p.header_hash)
    (hheight : b.height = p.height + 1) :
    receive_block phs st b = apply_block phs st b := by
  have happ : already_applied st b = false := by
    rw [Bool.eq_false_iff]
    intro hval
    obtain ⟨blk, hblk, hpred⟩ := List.any_eq_true.mp hval
    simp only [Bool.and_eq_true, decide_eq_true_eq] at hpred
    have h5 := hpred.1
    have h6 := hle blk hblk
    omega
  have hext : extends_peak st b = true := by
    simp [extends_peak, hlast, hprev, hheight]
  simp [receive_block, happ, hext]

theorem sync_no_pay (phs : List Nat) :
    ∀ (bs : List Block) (st : WalletState) (p : Block),
      st.chain.getLast? = some p →
      (∀ blk ∈ st.chain, blk.height ≤ p.height) →
      linked p.header_hash (p.height + 1) bs = true →
      (∀ b ∈ bs, relevant_additions phs b = []) →
      st.coin_records = [] → st.tx_records = [] →
      (sync_blocks phs st bs).coin_records = [] ∧
      (sync_blocks phs st bs).tx_records = [] := by
  intro bs
  induction bs with
  | nil => intro st p _ _ _ _ hc ht; exact ⟨hc, ht⟩
  | cons b rest ih =>
    intro st p hlast hle hlink hnopay hc ht
    simp only [linked, Bool.and_eq_true, decide_eq_true_eq] at hlink
    obtain ⟨⟨hprev, hheight⟩, hlrest⟩ := hlink
    have hrecv := extend_step phs st p b hlast hle hprev hheight
    have hadds : relevant_additions phs b = [] := hnopay b (List.mem_cons_self b rest)
    have hcr1 : (apply_block phs st b).coin_records = [] := by
      simp [apply_block, hadds, hc]
    have htx1 : (apply_block phs st b).tx_records = [] := by
      simp [apply_block, hadds, ht]
    have hchain1 : (apply_block phs st b).chain = st.chain ++ [b] := rfl
    have hlast1 : (apply_block phs st b).chain.getLast? = some b := by
      rw [hchain1]; exact List.getLast?_concat _
    have hle1 : ∀ blk ∈ (apply_block phs st b).chain, blk.height ≤ b.height := by
      rw [hchain1]
      intro blk hblk
      rcases List.mem_append.mp hblk with hmem | hmem
      · have := hle blk hmem; omega
      · have : blk = b := by simpa using hmem
        subst this; exact Nat.le_refl _
    have hlink1 : linked b.header_hash (b.height + 1) rest = true := by
      rw [hheight]; exact hlrest
    have hnopay1 : ∀ b0 ∈ rest, relevant_additions phs b0 = [] :=
      fun b0 h0 => hnopay b0 (List.mem_cons_of_mem b h0)
    have hrec := ih (apply_block phs st b) b hlast1 hle1 hlink1 hnopay1 hcr1 htx1
    simpa [sync_blocks, List.foldl_cons, hrecv] using hrec

theorem sync_applied_noop (phs : List Nat) :
    ∀ (bs : List Block) (st : WalletState),
      (∀ b ∈ bs, already_applied st b = true) → sync_blocks phs st bs = st := by
  intro bs
  induction bs with
  | nil => intro st _; rfl
  | cons b rest ih =>
    intro st h
    have h1 : receive_block phs st b = st := by
      simp [receive_block, h b (List.mem_cons_self b rest)]
    have h2 : sync_blocks phs st (b :: rest)
        = sync_blocks phs (receive_block phs st b) rest := rfl
    rw [h2, h1]
    exact ih st (fun b0 h0 => h b0 (List.mem_cons_of_mem b h0))

theorem sync_linked_records (phs : List Nat) :
    ∀ (bs : List Block) (st : WalletState) (p : Block),
      st.chain.getLast? = some p →
      (∀ blk ∈ st.chain, blk.height ≤ p.height) →
      linked p.header_hash (p.height + 1) bs = true →
      (∀ b ∈ bs, b.removals = []) →
      (sync_blocks phs st bs).chain = st.chain ++ bs ∧
      (sync_blocks phs st bs).coin_records
        = st.coin_records ++ new_coin_records phs bs := by
  intro bs
  induction bs with
  | nil => intro st p _ _ _ _; exact ⟨by simp [sync_blocks], by simp [sync_blocks, new_coin_records]⟩
  | cons b rest ih =>
    intro st p hlast hle hlink hnorem
    simp only [linked, Bool.and_eq_true, decide_eq_true_eq] at hlink
    obtain ⟨⟨hprev, hheight⟩, hlrest⟩ := hlink
    have hrecv := extend_step phs st p b hlast hle hprev hheight
    have hrem : b.removals = [] := hnorem b (List.mem_cons_self b rest)
    have hcr1 : (apply_block phs st b).coin_records
        = st.coin_records
          ++ (relevant_additions phs b).map (fun c => ⟨c, b.height, none⟩) := by
      simp [apply_block, hrem]
    have hchain1 : (apply_block phs st b).chain = st.chain ++ [b] := rfl
    have hlast1 : (apply_block phs st b).chain.getLast? = some b := by
      rw [hchain1]; exact List.getLast?_concat _
    have hle1 : ∀ blk ∈ (apply_block phs st b).chain, blk.height ≤ b.height := by
      rw [hchain1]
      intro blk hblk
      rcases List.mem_append.mp hblk with hmem | hmem
      · have := hle blk hmem; omega
      · have : blk = b := by simpa using hmem
        subst this; exact Nat.le_refl _
    have hlink1 : linked b.header_hash (b.height + 1) rest = true := by
      rw [hheight]; exact hlrest
    have hnorem1 : ∀ b0 ∈ rest, b0.removals = [] :=
      fun b0 h0 => hnorem b0 (List.mem_cons_of_mem b h0)
    obtain ⟨hchainr, hcrr⟩ := ih (apply_block phs st b) b hlast1 hle1 hlink1 hnorem1
    have hs2 : sync_blocks phs st (b :: rest)
        = sync_blocks phs (apply_block phs st b) rest := by
      have : sync_blocks phs st (b :: rest)
          = sync_blocks phs (receive_block phs st b) rest := rfl
      rw [this, hrecv]
    constructor
    · rw [hs2, hchainr, hchain1]
      simp
    · rw [hs2, hcrr, hcr1, new_coin_records]
      simp

theorem new_coin_records_balance (phs : List Nat) :
    ∀ bs : List Block,
      (((new_coin_records phs bs).filter (fun r => r.spent_height.isNone)).map
        (fun r => r.coin.amount)).sum
      = (bs.map (fun b => ((relevant_additions phs b).map (fun c => c.amount)).sum)).sum := by
  intro bs
  induction bs with
  | nil => simp [new_coin_records]
  | cons b rest ih =>
    have hfilter : ((relevant_additions phs b).map
          (fun c => (⟨c, b.height, none⟩ : WalletCoinRecord))).filter
          (fun r => r.spent_height.isNone)
        = (relevant_additions phs b).map (fun c => ⟨c, b.height, none⟩) := by
      apply List.filter_eq_self.mpr
      intro r hr
      obtain ⟨c, _, rfl⟩ := List.mem_map.mp hr
      rfl
    simp only [new_coin_records, List.filter_append, List.map_append,
      List.sum_append, List.map_cons, List.sum_cons, hfilter, List.map_map]
    rw [ih]
    rfl

theorem request_additions_invalid_raises_witness :
    request_additions cx_store 100 none (some [7]) = .raised ∧
    request_additions cx_store 0 (some 55) none = .raised :=
  ⟨request_additions_invalid_raises cx_store 100 none (some [7])
      (Or.inl (by decide)),
    request_additions_invalid_raises cx_store 0 (some 55) none
      (Or.inr ⟨cx_block, 55, by decide, rfl, by decide⟩)⟩

theorem getLast?_mem_of_some (l : List Block) (q : Block) (h : l.getLast? = some q) :
    q ∈ l := by
  rw [List.getLast?_eq_getElem?] at h
  exact List.getElem?_mem h

theorem getLast?_exists_of_length_pos (l : List Block) (h : 0 < l.length) :
    ∃ q, l.getLast? = some q := by
  cases hg : l.getLast? with
  | none =>
    have : l = [] := by simpa using hg
    rw [this] at h
    exact absurd h (by simp)
  | some q => exact ⟨q, rfl⟩

theorem find_fork_of_linked (st : WalletState) (b : Block) (F : Nat)
    (hchain : heights_from 0 st.chain = true)
    (hF : F < st.chain.length)
    (hhash : (st.chain.get ⟨F, hF⟩).header_hash = b.prev_header_hash)
    (hheight : b.height = F + 1) :
    find_fork st b = some F := by
  unfold find_fork
  cases hfind : st.chain.find? (fun blk =>
      blk.header_hash = b.prev_header_hash && blk.height + 1 = b.height) with
  | none =>
    exfalso
    have hnone := List.find?_eq_none.mp hfind (st.chain.get ⟨F, hF⟩)
      (List.get_mem st.chain F hF)
    apply hnone
    have hg : (st.chain.get ⟨F, hF⟩).height = F := by
      simpa using heights_from_get st.chain 0 hchain F hF
    simp only [List.get_eq_getElem] at hhash hg
    simp [hhash, hg, hheight]
  | some blk =>
    have hpred := List.find?_some hfind
    simp only [Bool.and_eq_true, decide_eq_true_eq] at hpred
    have h1 := hpred.2
    have h2 : blk.height = F := by omega
    show some blk.height = some F
    rw [h2]

/-- C1: for a wallet whose coin and transaction records all stem from heights
above the fork point F (in particular a reward confirmed at height H > F), a
reorg delivering a linked branch that forks at F and pays the wallet nothing
leaves the wallet with no coin records, no transaction records, and confirmed
balance 0 — exactly the state it would have had if the reward block had never
existed. -/
theorem reorg_reward_restoration (phs : List Nat) (st : WalletState) (F : Nat)
    (b1 : Block) (rest : List Block)
    (hchain : heights_from 0 st.chain = true)
    (hF : F + 1 < st.chain.length)
    (hcoin : ∀ r ∈ st.coin_records, F < r.confirmed_height)
    (htx : ∀ t ∈ st.tx_records, F < t.confirmed_height)
    (hlink : linked (st.chain.get ⟨F, Nat.lt_of_succ_lt hF⟩).header_hash (F + 1)
      (b1 :: rest) = true)
    (hfresh : already_applied st b1 = false)
    (hnopay : ∀ b ∈ b1 :: rest, relevant_additions phs b = []) :
    (sync_blocks phs st (b1 :: rest)).coin_records = [] ∧
    (sync_blocks phs st (b1 :: rest)).tx_records = [] ∧
    (sync_blocks phs st (b1 :: rest)).balance = 0 := by
  simp only [linked, Bool.and_eq_true, decide_eq_true_eq] at hlink
  obtain ⟨⟨hprev, hheight⟩, hlrest⟩ := hlink
  obtain ⟨q, hq⟩ := getLast?_exists_of_length_pos st.chain (by omega)
  have hqh : q.height = st.chain.length - 1 := by
    have := heights_from_getLast st.chain 0 hchain q hq
    omega
  have hext : extends_peak st b1 = false := by
    unfold extends_peak
    rw [hq]
    have hne : ¬ (b1.height = q.height + 1) := by omega
    simp [hne]
  have hfork : find_fork st b1 = some F :=
    find_fork_of_linked st b1 F hchain (Nat.lt_of_succ_lt hF) hprev.symm hheight
  have hrecv : receive_block phs st b1 = apply_block phs (rollback st F) b1 := by
    simp [receive_block, hfresh, hext, hfork]
  have hrc : (rollback st F).coin_records = [] := by
    have hf : st.coin_records.filter (fun r => r.confirmed_height ≤ F) = [] := by
      apply List.filter_eq_nil_iff.mpr
      intro r hr
      have := hcoin r hr
      simp only [decide_eq_true_eq]
      omega
    simp [rollback, hf]
  have hrt : (rollback st F).tx_records = [] := by
    have hf : st.tx_records.filter (fun t => t.confirmed_height ≤ F) = [] := by
      apply List.filter_eq_nil_iff.mpr
      intro t ht2
      have := htx t ht2
      simp only [decide_eq_true_eq]
      omega
    simp [rollback, hf]
  have hnp1 : relevant_additions phs b1 = [] := hnopay b1 (List.mem_cons_self b1 rest)
  have hcr1 : (apply_block phs (rollback st F) b1).coin_records = [] := by
    simp [apply_block, hrc, hnp1]
  have htx1 : (apply_block phs (rollback st F) b1).tx_records = [] := by
    simp [apply_block, hrt, hnp1]
  have hchain1 : (apply_block phs (rollback st F) b1).chain
      = (rollback st F).chain ++ [b1] := rfl
  have hlast1 : (apply_block phs (rollback st F) b1).chain.getLast? = some b1 := by
    rw [hchain1]; exact List.getLast?_concat _
  have hle1 : ∀ blk ∈ (apply_block phs (rollback st F) b1).chain,
      blk.height ≤ b1.height := by
    rw [hchain1]
    intro blk hblk
    rcases List.mem_append.mp hblk with hmem | hmem
    · have hmem2 : blk ∈ st.chain.filter (fun blk => blk.height ≤ F) := hmem
      have hble := (List.mem_filter.mp hmem2).2
      simp only [decide_eq_true_eq] at hble
      omega
    · have : blk = b1 := by simpa using hmem
      subst this
      exact Nat.le_refl _
  have hlink1 : linked b1.header_hash (b1.height + 1) rest = true := by
    rw [hheight]; exact hlrest
  have hnopay1 : ∀ b0 ∈ rest, relevant_additions phs b0 = [] :=
    fun b0 h0 => hnopay b0 (List.mem_cons_of_mem b1 h0)
  obtain ⟨hfin_c, hfin_t⟩ := sync_no_pay phs rest (apply_block phs (rollback st F) b1)
    b1 hlast1 hle1 hlink1 hnopay1 hcr1 htx1
  have hs2 : sync_blocks phs st (b1 :: rest)
      = sync_blocks phs (apply_block phs (rollback st F) b1) rest := by
    have h0 : sync_blocks phs st (b1 :: rest)
        = sync_blocks phs (receive_block phs st b1) rest := rfl
    rw [h0, hrecv]
  refine ⟨by rw [hs2]; exact hfin_c, by rw [hs2]; exact hfin_t, ?_⟩
  rw [hs2]
  simp [WalletState.balance, hfin_c]

theorem reorg_reward_restoration_witness :
    (sync_blocks [7] sample_wallet [reorgC, reorgD]).coin_records = [] ∧
    (sync_blocks [7] sample_wallet [reorgC, reorgD]).balance = 0 := by
  have h := reorg_reward_restoration [7] sample_wallet 1 reorgC [reorgD]
    (by decide) (by decide) (by decide) (by decide) (by decide) (by decide) (by decide)
  exact ⟨h.1, h.2.2⟩

/-- C7: a wallet already partially synced along the peer chain (its local chain
is a non-empty prefix) that runs the weight-proof sync engine with a recent
window of W blocks ends fully synced to the peer chain, and its confirmed
balance includes every coin paid to it in the blocks between its last-known
height and the peer peak — in particular the coins confirmed just before the
recent-block window, which the engine backfills rather than missing. -/
theorem weight_proof_sync_backfills (phs : List Nat) (W : Nat) (st : WalletState)
    (peer_chain : List Block)
    (hlinked : chain_linked peer_chain = true)
    (hm1 : 1 ≤ st.chain.length)
    (hm2 : st.chain.length ≤ peer_chain.length)
    (hpre : st.chain = peer_chain.take st.chain.length)
    (hnorem : ∀ b ∈ peer_chain.drop st.chain.length, b.removals = []) :
    (weight_proof_sync phs W st peer_chain).chain = peer_chain ∧
    (weight_proof_sync phs W st peer_chain).coin_records =
      st.coin_records ++ new_coin_records phs (peer_chain.drop st.chain.length) ∧
    (weight_proof_sync phs W st peer_chain).balance =
      st.balance + ((peer_chain.drop st.chain.length).map
        (fun b => ((relevant_additions phs b).map (fun c => c.amount)).sum)).sum := by
  have hpeer : heights_from 0 peer_chain = true := chain_linked_heights peer_chain hlinked
  have hstc : heights_from 0 st.chain = true := by
    rw [hpre]
    exact heights_from_take peer_chain 0 st.chain.length hpeer
  obtain ⟨q, hq⟩ := getLast?_exists_of_length_pos st.chain (by omega)
  have hqh : q.height = st.chain.length - 1 := by
    have := heights_from_getLast st.chain 0 hstc q hq
    omega
  have hqlt : q.height < peer_chain.length := by omega
  have hqget : q = peer_chain.get ⟨q.height, hqlt⟩ := by
    apply heights_mem_eq_get peer_chain hpeer q ?_ hqlt
    have hqmem : q ∈ st.chain := getLast?_mem_of_some st.chain q hq
    rw [hpre] at hqmem
    exact List.take_subset st.chain.length peer_chain hqmem
  have hlt : st.chain.length - 1 < peer_chain.length := by omega
  have hld := chain_linked_drop peer_chain hlinked st.chain.length hm1 hm2 hlt
  have hqeq : peer_chain.get ⟨st.chain.length - 1, hlt⟩ = q := by
    rw [hqget]
    congr 1
    exact Fin.ext (by simp [hqh])
  have hlinkq : linked q.header_hash (q.height + 1) (peer_chain.drop st.chain.length)
      = true := by
    have hq1 : q.height + 1 = st.chain.length := by omega
    rw [hq1, ← hqeq]
    exact hld
  have hle : ∀ blk ∈ st.chain, blk.height ≤ q.height := by
    intro blk hblk
    have := heights_from_mem_lt st.chain 0 hstc blk hblk
    omega
  obtain ⟨hsc, hscr⟩ := sync_linked_records phs (peer_chain.drop st.chain.length)
    st q hq hle hlinkq hnorem
  have hfsm : min (peer_chain.length - W) st.chain.length ≤ st.chain.length :=
    min_le_right _ _
  have hsplit : peer_chain.drop (min (peer_chain.length - W) st.chain.length)
      = (peer_chain.take st.chain.length).drop
          (min (peer_chain.length - W) st.chain.length)
        ++ peer_chain.drop st.chain.length := by
    have h1 := List.take_append_drop
      (st.chain.length - min (peer_chain.length - W) st.chain.length)
      (peer_chain.drop (min (peer_chain.length - W) st.chain.length))
    have h2 : (peer_chain.drop (min (peer_chain.length - W) st.chain.length)).drop
        (st.chain.length - min (peer_chain.length - W) st.chain.length)
        = peer_chain.drop st.chain.length := by
      rw [List.drop_drop]
      congr 1
      omega
    have h3 : (peer_chain.take st.chain.length).drop
        (min (peer_chain.length - W) st.chain.length)
        = (peer_chain.drop (min (peer_chain.length - W) st.chain.length)).take
          (st.chain.length - min (peer_chain.length - W) st.chain.length) :=
      List.drop_take st.chain.length (min (peer_chain.length - W) st.chain.length)
        peer_chain
    rw [h3, ← h2]
    exact h1.symm
  have hnoop : sync_blocks phs st ((peer_chain.take st.chain.length).drop
      (min (peer_chain.length - W) st.chain.length)) = st := by
    apply sync_applied_noop
    intro b hb
    have hbmem : b ∈ st.chain := by
      rw [hpre]
      exact List.drop_subset _ _ hb
    exact List.any_eq_true.mpr ⟨b, hbmem, by simp⟩
  have hwps : weight_proof_sync phs W st peer_chain
      = sync_blocks phs st
        (peer_chain.drop (min (peer_chain.length - W) st.chain.length)) := rfl
  have hfold : weight_proof_sync phs W st peer_chain
      = sync_blocks phs st (peer_chain.drop st.chain.length) := by
    rw [hwps, hsplit]
    have happfold : sync_blocks phs st
        (((peer_chain.take st.chain.length).drop
          (min (peer_chain.length - W) st.chain.length))
          ++ peer_chain.drop st.chain.length)
        = sync_blocks phs (sync_blocks phs st
            ((peer_chain.take st.chain.length).drop
              (min (peer_chain.length - W) st.chain.length)))
          (peer_chain.drop st.chain.length) := by
      simp [sync_blocks, List.foldl_append]
    rw [happfold, hnoop]
  refine ⟨?_, ?_, ?_⟩
  · rw [hfold, hsc]
    nth_rewrite 1 [hpre]
    exact List.take_append_drop _ _
  · rw [hfold]
    exact hscr
  · rw [hfold]
    simp only [WalletState.balance]
    rw [hscr, List.filter_append, List.map_append, List.sum_append,
      new_coin_records_balance phs (peer_chain.drop st.chain.length)]

theorem weight_proof_sync_backfills_witness :
    (weight_proof_sync [7] 1 st7 peer7).balance = 50 ∧
    (weight_proof_sync [7] 1 st7 peer7).chain = peer7 := by
  have h := weight_proof_sync_backfills [7] 1 st7 peer7
    (by decide) (by decide) (by decide) (by decide) (by decide)
  exact ⟨h.2.2.trans (by decide), h.1⟩
